import Mathlib

/-
Verification of the rag-sistem knowledge-corpus core against its design
specification (spec.md).  The repository ships only the Next.js frontend
under src/frontend; the backend core (Chunker, Embedding Client, Vector
Index, Ingestion Pipeline, Auto-Fill Engine) is described by spec.md
sections 2-7 and is modelled here from the spec.  Frontend functions
(upload validation, auto-fill request building, reprocess gating) are
embedded directly from the TypeScript sources.
-/

namespace RagSystem

/-! ### Chunker (spec section 4.1) -/

/-- Modelled from the spec: the backend Chunker is not in src/.  A chunk is
a bounded, ordered slice of a document's extracted text: 0-based ordinal,
start offset in characters, and the text span (spec section 3, Chunk). -/
structure Chunk where
  ordinal : Nat
  startOff : Nat
  text : List Char
deriving Repr, DecidableEq

/-- Modelled from the spec: a paragraph or sentence boundary character at
which the Chunker prefers to cut (spec section 4.1, splits on
paragraph/sentence boundaries where possible). -/
def isBoundary (c : Char) : Bool := c = '\n' || c = '.'

/-- Modelled from the spec: candidate cut positions strictly after position
lo and at most hi that fall just after a boundary character.  The lower
bound keeps every cut more than overlap characters past the chunk start,
so chunking always makes progress. -/
def boundaryCuts (s : List Char) (lo hi : Nat) : List Nat :=
  ((List.range s.length).filter
    (fun p => decide (lo < p + 1) && decide (p + 1 ≤ hi) && isBoundary (s.getD p ' '))).map
    (fun p => p + 1)

/-- Modelled from the spec: the cut position for a chunk beginning at
start.  If the rest of the text fits in maxSize the chunk runs to the end;
otherwise the last boundary inside the window is used, falling back to a
hard character cut at start + maxSize (spec section 4.1). -/
def cutPos (s : List Char) (start maxSize overlap : Nat) : Nat :=
  if s.length ≤ start + maxSize then s.length
  else
    match (boundaryCuts s (start + overlap) (start + maxSize)).max? with
    | some c => c
    | none => start + maxSize

/-- Modelled from the spec: the chunking loop.  Each chunk after the first
begins overlap characters before the previous chunk's end (spec section
4.1).  Fuel bounds the recursion; chunk always supplies enough fuel. -/
def chunkGo (s : List Char) (maxSize overlap : Nat) : Nat → Nat → Nat → List Chunk
  | 0, _, _ => []
  | fuel + 1, start, ord =>
    let cut := cutPos s start maxSize overlap
    let c : Chunk := ⟨ord, start, (s.drop start).take (cut - start)⟩
    if s.length ≤ cut then [c]
    else c :: chunkGo s maxSize overlap fuel (cut - overlap) (ord + 1)

/-- Modelled from the spec: the two ChunkingError causes of section 4.1:
a configuration error (max_size at most overlap) or empty input text. -/
inductive ChunkingError where
  | badConfig
  | emptyInput
deriving Repr, DecidableEq

/-- Modelled from the spec: chunk(text, max_size, overlap) returns an
ordered finite sequence of chunks, failing with ChunkingError only when
max_size is at most overlap or the input text is empty (spec section 4.1). -/
def chunk (s : List Char) (maxSize overlap : Nat) : Except ChunkingError (List Chunk) :=
  if maxSize ≤ overlap then .error .badConfig
  else if s.isEmpty then .error .emptyInput
  else .ok (chunkGo s maxSize overlap (s.length + 1) 0 0)

/-- Trimmed concatenation of chunk texts.  Consecutive chunks share an
overlapping region of exactly overlap characters; trimming it at its
midpoint means the earlier chunk keeps the first half (overlap / 2
characters rounded down) and the later chunk keeps the rest, so the
earlier text loses its last overlap - overlap / 2 characters and the
later text loses its first overlap / 2 characters (spec section 3,
Chunk invariant). -/
def midTrim (ov : Nat) : List (List Char) → List Char
  | [] => []
  | [t] => t
  | t :: t2 :: ts => t.take (t.length - (ov - ov / 2)) ++ midTrim ov (t2.drop (ov / 2) :: ts)
termination_by l => l.length

/-- Drop k characters from the first text of a list of texts. -/
def dropHead (k : Nat) : List (List Char) → List (List Char)
  | [] => []
  | t :: ts => t.drop k :: ts

/-! ### Document lifecycle, Vector Index, Ingestion Pipeline
(spec sections 3, 4.2, 4.3, 4.4) -/

/-- Modelled from the spec: the document lifecycle status of spec
section 3. -/
inductive DocStatus where
  | new
  | processing
  | ready
  | failed
deriving Repr, DecidableEq

/-- Modelled from the spec: a Corpus Vector Entry, the materialized form
of a Chunk inside the Vector Index: entry id, vector, dimension, document
id, chunk ordinal, raw text (spec section 3). -/
structure Entry where
  entryId : Nat
  vector : List Int
  dim : Nat
  docId : Nat
  ordinal : Nat
  rawText : List Char
deriving Repr, DecidableEq

/-- Modelled from the spec: the joint state of the Document Store
(statuses and error detail, spec section 3 Document) and the Vector
Index (entries, spec section 4.3). -/
structure CorpusState where
  status : Nat → DocStatus
  errorDetail : Nat → Option (List Char)
  index : List Entry

/-- Modelled from the spec: initially every document is new and the
index is empty. -/
def initState : CorpusState :=
  { status := fun _ => .new, errorDetail := fun _ => none, index := [] }

/-- Modelled from the spec: delete_by_document of spec section 4.3. -/
def deleteByDoc (d : Nat) (idx : List Entry) : List Entry :=
  idx.filter (fun e => decide (e.docId ≠ d))

/-- The entries stored for one document id. -/
def entriesFor (d : Nat) (idx : List Entry) : List Entry :=
  idx.filter (fun e => decide (e.docId = d))

/-- Modelled from the spec: a well-formed entry for document d carries
that document id, dimension field equal to the corpus-wide configured
dimension, and a vector of that dimension (spec section 3, Corpus Vector
Entry invariant). -/
def entryOk (cfgDim d : Nat) (e : Entry) : Prop :=
  e.docId = d ∧ e.dim = cfgDim ∧ e.vector.length = cfgDim

/-- Modelled from the spec: the actions of the ingestion lifecycle state
machine (spec section 4.4 and the reprocess interface of section 6). -/
inductive Act where
  | claimJob (d : Nat)
  | reprocess (d : Nat)
  | finishSuccess (d : Nat) (entries : List Entry)
  | fail (d : Nat) (cause : List Char)

/-- Status update for one document. -/
def setStatus (s : CorpusState) (d : Nat) (st : DocStatus) : CorpusState :=
  { s with status := fun x => if x = d then st else s.status x }

/-- Modelled from the spec: the state reached by a successful ingestion:
previous entries for the document are deleted, the new ones upserted
atomically, and only then is the document marked ready (spec section 4.4
rules 2 and 3, spec section 4.3 delete-then-upsert). -/
def finishTarget (s : CorpusState) (d : Nat) (entries : List Entry) : CorpusState :=
  { status := fun x => if x = d then .ready else s.status x
    errorDetail := s.errorDetail
    index := deleteByDoc d s.index ++ entries }

/-- Modelled from the spec: the state reached by a failed ingestion
attempt: any partial entries are deleted before failed is recorded
together with the first fatal cause (spec section 4.4 rule 4). -/
def failTarget (s : CorpusState) (d : Nat) (cause : List Char) : CorpusState :=
  { status := fun x => if x = d then .failed else s.status x
    errorDetail := fun x => if x = d then some cause else s.errorDetail x
    index := deleteByDoc d s.index }

/-- Modelled from the spec: the ingestion step relation of spec section
4.4.  claimJob claims a new document; reprocess re-drives a ready or
failed document to processing; finishSuccess upserts all chunk vectors
and moves to ready only when every entry is well formed at the configured
dimension; fail deletes partial entries and records a non-empty cause. -/
inductive Step (cfgDim : Nat) : CorpusState → Act → CorpusState → Prop where
  | claimJob (s : CorpusState) (d : Nat) :
      s.status d = .new →
      Step cfgDim s (.claimJob d) (setStatus s d .processing)
  | reprocess (s : CorpusState) (d : Nat) :
      s.status d = .ready ∨ s.status d = .failed →
      Step cfgDim s (.reprocess d) (setStatus s d .processing)
  | finishSuccess (s : CorpusState) (d : Nat) (entries : List Entry) :
      s.status d = .processing →
      (∀ e ∈ entries, entryOk cfgDim d e) →
      Step cfgDim s (.finishSuccess d entries) (finishTarget s d entries)
  | fail (s : CorpusState) (d : Nat) (cause : List Char) :
      s.status d = .processing →
      cause ≠ [] →
      Step cfgDim s (.fail d cause) (failTarget s d cause)

/-- Some ingestion action leads from s to s2. -/
def StepAny (cfgDim : Nat) (s s2 : CorpusState) : Prop := ∃ a, Step cfgDim s a s2

/-- States reachable from the initial state by ingestion steps. -/
def Reachable (cfgDim : Nat) (s : CorpusState) : Prop :=
  Relation.ReflTransGen (StepAny cfgDim) initState s

/-- Dot-product similarity between two vectors. -/
def dot (v w : List Int) : Int := ((v.zip w).map (fun p => p.1 * p.2)).sum

/-- Modelled from the spec: search(query_vector, top_k, metadata_filter)
of spec section 4.3 under the ready-gated visibility rule of sections 4.3
and 5: only entries of ready documents are candidates; candidates are
ranked by similarity and the top_k returned. -/
def searchIndex (s : CorpusState) (q : List Int) (topK : Nat)
    (metaFilter : Entry → Bool) : List Entry :=
  ((s.index.filter (fun e => metaFilter e && decide (s.status e.docId = .ready))).insertionSort
    (fun a b => dot q b.vector ≤ dot q a.vector)).take topK

/-- Modelled from the spec: fatal causes of an ingestion attempt (spec
sections 4.2, 4.4 and 7); DimensionMismatchError is the fatal
configuration error of section 4.2. -/
inductive IngestError where
  | extractionFailed
  | chunkingFailed (e : ChunkingError)
  | dimensionMismatch
deriving Repr, DecidableEq

/-- Modelled from the spec: embed_batch wraps the embedding model
(embedFn), returns vectors in input order, and turns any vector whose
dimension differs from the configured one into a fatal
DimensionMismatchError rather than dropping or truncating it (spec
section 4.2). -/
def embedBatch (cfgDim : Nat) (embedFn : List Char → List Int)
    (ts : List (List Char)) : Except IngestError (List (List Int)) :=
  if (ts.map embedFn).all (fun v => decide (v.length = cfgDim)) then .ok (ts.map embedFn)
  else .error .dimensionMismatch

/-- Modelled from the spec: embed_query under the same dimensionality
contract (spec section 4.2). -/
def embedQuery (cfgDim : Nat) (embedFn : List Char → List Int)
    (t : List Char) : Except IngestError (List Int) :=
  if (embedFn t).length = cfgDim then .ok (embedFn t)
  else .error .dimensionMismatch

/-- Modelled from the spec: materialize chunks and their vectors as
corpus vector entries keyed by (document id, chunk ordinal); the recorded
dimension is the actual vector length (spec section 3). -/
def mkEntries (d : Nat) (cs : List Chunk) (vs : List (List Int)) : List Entry :=
  (cs.zip vs).map (fun p => ⟨p.1.ordinal, p.2, p.2.length, d, p.1.ordinal, p.1.text⟩)

/-- Modelled from the spec: one ingestion attempt for a document:
extraction (the collaborator result is passed in), chunking, embedding of
all chunks, entry construction; the first fatal cause aborts the attempt
(spec section 4.4 rules 2 and 4). -/
def ingestAttempt (cfgDim : Nat) (embedFn : List Char → List Int)
    (extracted : Option (List Char)) (m ov d : Nat) :
    Except IngestError (List Entry) :=
  match extracted with
  | none => .error .extractionFailed
  | some text =>
    match chunk text m ov with
    | .error e => .error (.chunkingFailed e)
    | .ok cs =>
      match embedBatch cfgDim embedFn (cs.map Chunk.text) with
      | .error e => .error e
      | .ok vs => .ok (mkEntries d cs vs)

/-- Invariant: every index entry belongs to a ready or processing
document and has the configured dimension. -/
def IndexInv (cfgDim : Nat) (s : CorpusState) : Prop :=
  ∀ e ∈ s.index, (s.status e.docId = .ready ∨ s.status e.docId = .processing) ∧
    e.dim = cfgDim ∧ e.vector.length = cfgDim

/-- Invariant: a failed document has a populated error detail and no
entries in the index. -/
def FailedInv (s : CorpusState) : Prop :=
  ∀ d, s.status d = .failed → s.errorDetail d ≠ none ∧ entriesFor d s.index = []

/-! ### Auto-Fill Engine (spec section 4.7) -/

/-- Modelled from the spec: a merged retrieval candidate for one field:
the proposed value extracted from a chunk, the supporting chunk
reference (document id and chunk ordinal), and the raw blended score
combining retrieval similarity, type conformance and query agreement
(spec section 4.7 steps 2 to 4; the exact blend is tunable policy per
spec section 9). -/
structure Candidate where
  value : List Char
  chunkDoc : Nat
  chunkOrd : Nat
  rawScore : ℚ
deriving Repr, DecidableEq

/-- Modelled from the spec: a named form field with declared type and
required flag (spec section 3, Form Field). -/
structure FieldSpec where
  name : List Char
  declaredType : List Char
  required : Bool
deriving Repr, DecidableEq

/-- Modelled from the spec: the per-field auto-fill result: nullable
value and confidence score (spec section 3, Auto-Fill Result). -/
structure FieldResult where
  name : List Char
  value : Option (List Char)
  confidence : ℚ
deriving Repr, DecidableEq

/-- Clamp a rational into the unit interval. -/
def clamp01 (x : ℚ) : ℚ := max 0 (min 1 x)

/-- Modelled from the spec: fill one field from its merged candidates:
the best-scoring candidate wins if its confidence clears the minimum
confidence floor; otherwise the field is left unfilled with value none
and confidence 0 rather than guessed (spec section 4.7 steps 3 and 4). -/
def fillOne (floor : ℚ) (cands : List Candidate) : Option (List Char) × ℚ :=
  match cands.argmax (fun c => clamp01 c.rawScore) with
  | none => (none, 0)
  | some best =>
    if floor ≤ clamp01 best.rawScore then (some best.value, clamp01 best.rawScore)
    else (none, 0)

/-- Modelled from the spec: the Auto-Fill outcome: per-field results,
the average confidence reported to the caller, and the non-destructive
rewrite plan containing only the filled fields (spec section 4.7 steps
4 and 5). -/
structure AutoFillOutcome where
  results : List FieldResult
  averageConfidence : ℚ
  plan : List (List Char × List Char)
deriving Repr, DecidableEq

/-- Modelled from the spec: the Auto-Fill Engine: one retrieval per
field (the retrieve oracle stands for query generation plus the
Retrieval Pipeline), per-field selection against the confidence floor,
average confidence over all fields, and a rewrite plan that only
touches filled fields (spec section 4.7). -/
def autoFill (floor : ℚ) (retrieve : FieldSpec → List Candidate)
    (fields : List FieldSpec) : AutoFillOutcome :=
  let results := fields.map (fun f =>
    { name := f.name
      value := (fillOne floor (retrieve f)).1
      confidence := (fillOne floor (retrieve f)).2 : FieldResult })
  { results := results
    averageConfidence := (results.map FieldResult.confidence).sum / (fields.length : ℚ)
    plan := results.filterMap (fun r => r.value.map (fun v => (r.name, v))) }

/-! ### Frontend upload validation
(src/frontend/app/dashboard/upload/page.tsx) -/

/-- The metadata of a selected file: name, declared MIME type, and size
in bytes (the fields of the browser File object that validateFile
reads). -/
structure FileMeta where
  name : List Char
  mimeType : List Char
  size : Nat
deriving Repr, DecidableEq

/-- The keys of ACCEPTED_FILE_TYPES (upload/page.tsx lines 24-33). -/
def acceptedMimeTypes : List (List Char) :=
  ["application/pdf".toList,
   "application/msword".toList,
   "application/vnd.openxmlformats-officedocument.wordprocessingml.document".toList,
   "application/vnd.ms-excel".toList,
   "application/vnd.openxmlformats-officedocument.spreadsheetml.sheet".toList,
   "text/plain".toList,
   "application/zip".toList,
   "application/x-zip-compressed".toList]

/-- MAX_FILE_SIZE of upload/page.tsx line 35: 500 * 1024 * 1024 bytes. -/
def maxFileSize : Nat := 500 * 1024 * 1024

/-- The regular-expression test of upload/page.tsx line 70: the file
name matches the case-insensitive pattern dot followed by pdf, doc,
docx, xls, xlsx, txt or zip at the end of the name; equivalently the
lowercased name ends with one of these extensions. -/
def extensionMatches (name : List Char) : Bool :=
  [".pdf".toList, ".doc".toList, ".docx".toList, ".xls".toList,
   ".xlsx".toList, ".txt".toList, ".zip".toList].any
    (fun e => e.isSuffixOf (name.map Char.toLower))

/-- Embedded from validateFile (upload/page.tsx lines 68-77): a file
whose MIME type is not accepted and whose name does not match the
extension pattern is rejected as unsupported; otherwise a file larger
than MAX_FILE_SIZE is rejected as too large; otherwise there is no
error. -/
def validateFile (f : FileMeta) : Option (List Char) :=
  if f.mimeType ∉ acceptedMimeTypes ∧ extensionMatches f.name = false then
    some "Formato file non supportato. Supportati: PDF, DOC, DOCX, XLS, XLSX, TXT, ZIP".toList
  else if f.size > maxFileSize then
    some "File troppo grande. Dimensione massima: 500MB".toList
  else none

/-- Embedded from handleFiles (upload/page.tsx lines 79-107): the files
submitted to uploadDocuments are exactly those validateFile accepts, in
selection order. -/
def handleFilesSubmitted (files : List FileMeta) : List FileMeta :=
  files.filter (fun f => (validateFile f).isNone)

/-- Embedded from handleFiles (upload/page.tsx lines 85-97): every
rejected file contributes one error message built from its name and the
validation error. -/
def handleFilesErrors (files : List FileMeta) : List (List Char) :=
  (files.filter (fun f => (validateFile f).isSome)).map
    (fun f => f.name ++ ": ".toList ++ ((validateFile f).getD []))

/-! ### Frontend auto-fill request
(src/frontend/app/dashboard/search/components/DocumentFormFilling.tsx) -/

/-- A form field as extracted by the form-filling dialog (the fields of
FormField that handleAutoFill reads). -/
structure FormFieldUI where
  name : List Char
  fieldType : List Char
  required : Bool
deriving Repr, DecidableEq

/-- The request body sent by handleAutoFill to autoFillForm
(DocumentFormFilling.tsx lines 145-150). -/
structure AutoFillRequest where
  formId : List Char
  fieldNames : List (List Char)
  searchContext : List Char
  agentGuidance : Option (List Char)
deriving Repr, DecidableEq

/-- Whitespace characters stripped by the JavaScript String.trim call. -/
def isTrimmedWhitespace (c : Char) : Bool :=
  c = ' ' || c = '\t' || c = '\n' || c = '\r'

/-- The trim of a string: whitespace stripped from both ends. -/
def trimChars (s : List Char) : List Char :=
  ((s.dropWhile isTrimmedWhitespace).reverse.dropWhile isTrimmedWhitespace).reverse

/-- The fixed base instruction of handleAutoFill
(DocumentFormFilling.tsx line 142). -/
def baseInstruction : List Char :=
  "Compila automaticamente tutti i campi del form.".toList

/-- Embedded from handleAutoFill (DocumentFormFilling.tsx lines
135-150): field_names collects every extracted field name in extraction
order; search_context is the base instruction, extended by one space
and the trimmed guidance when that is non-empty; agent_guidance is
omitted exactly when the trimmed guidance is empty. -/
def buildAutoFillRequest (formId : List Char) (extractedFields : List FormFieldUI)
    (agentGuidance : List Char) : AutoFillRequest :=
  { formId := formId
    fieldNames := extractedFields.map (fun f => f.name)
    searchContext :=
      if trimChars agentGuidance ≠ [] then
        baseInstruction ++ (' ' :: trimChars agentGuidance)
      else baseInstruction
    agentGuidance :=
      if trimChars agentGuidance = [] then none
      else some (trimChars agentGuidance) }

/-- A sample entry used to instantiate reachability statements. -/
def sampleEntry : Entry := ⟨0, [1, 2, 3], 3, 0, 0, ['x']⟩

/-- A sample state in which document 0 was ingested successfully. -/
def sampleReadyState : CorpusState :=
  finishTarget (setStatus initState 0 .processing) 0 [sampleEntry]

/-- A sample state in which document 0 failed ingestion. -/
def sampleFailedState : CorpusState :=
  failTarget (setStatus initState 0 .processing) 0 ['E']

/-! ### Supporting lemmas and claim theorems -/

/-- One-step unfolding of the chunking loop. -/
theorem chunkGo_succ (s : List Char) (m ov fuel start ord : Nat) :
    chunkGo s m ov (fuel + 1) start ord =
      if s.length ≤ cutPos s start m ov then
        [⟨ord, start, (s.drop start).take (cutPos s start m ov - start)⟩]
      else
        (⟨ord, start, (s.drop start).take (cutPos s start m ov - start)⟩ : Chunk) ::
          chunkGo s m ov fuel (cutPos s start m ov - ov) (ord + 1) := rfl

theorem mem_boundaryCuts {s : List Char} {lo hi c : Nat} (h : c ∈ boundaryCuts s lo hi) :
    lo < c ∧ c ≤ hi := by
  unfold boundaryCuts at h
  rw [List.mem_map] at h
  obtain ⟨p, hp, hpc⟩ := h
  rw [List.mem_filter, Bool.and_eq_true, Bool.and_eq_true] at hp
  have h2 : lo < p + 1 := of_decide_eq_true hp.2.1.1
  have h3 : p + 1 ≤ hi := of_decide_eq_true hp.2.1.2
  omega

theorem cutPos_le_length (s : List Char) (start m ov : Nat) :
    cutPos s start m ov ≤ s.length := by
  unfold cutPos
  split
  · exact le_rfl
  · rename_i hlen
    split
    · rename_i c hc
      have hmem := mem_boundaryCuts (List.max?_mem (fun a b => max_choice a b) hc)
      omega
    · omega

theorem lt_cutPos_of_lt (s : List Char) (start m ov : Nat) (hmo : ov < m) :
    start + ov < cutPos s start m ov ∨ (cutPos s start m ov = s.length) := by
  unfold cutPos
  split
  · exact Or.inr rfl
  · rename_i hlen
    left
    split
    · rename_i c hc
      have hmem := mem_boundaryCuts (List.max?_mem (fun a b => max_choice a b) hc)
      omega
    · omega

theorem cutPos_pos_progress (s : List Char) (start m ov : Nat) (hmo : ov < m)
    (hcut : cutPos s start m ov < s.length) :
    start + ov < cutPos s start m ov := by
  rcases lt_cutPos_of_lt s start m ov hmo with h | h
  · exact h
  · omega

theorem chunkGo_ne_nil (s : List Char) (m ov fuel start ord : Nat) (hf : fuel ≠ 0) :
    chunkGo s m ov fuel start ord ≠ [] := by
  cases fuel with
  | zero => exact absurd rfl hf
  | succ fuel =>
    rw [chunkGo_succ]
    split <;> simp

/-- The ordinals produced by the chunking loop are contiguous from the
initial ordinal. -/
theorem chunkGo_ordinals (s : List Char) (m ov : Nat) :
    ∀ fuel start ord, (chunkGo s m ov fuel start ord).map Chunk.ordinal =
      List.range' ord (chunkGo s m ov fuel start ord).length := by
  intro fuel
  induction fuel with
  | zero => intro start ord; simp [chunkGo]
  | succ fuel ih =>
    intro start ord
    rw [chunkGo_succ]
    split
    · simp [List.range']
    · simp only [List.map_cons, List.length_cons, ih]
      rw [List.range'_succ]

/-- On a text with no paragraph or sentence boundary characters there are
no boundary cut candidates. -/
theorem boundaryCuts_eq_nil (s : List Char) (hnb : ∀ c ∈ s, isBoundary c = false)
    (lo hi : Nat) : boundaryCuts s lo hi = [] := by
  unfold boundaryCuts
  apply List.map_eq_nil_iff.mpr
  apply List.filter_eq_nil_iff.mpr
  intro p hp hcond
  rw [List.mem_range] at hp
  rw [Bool.and_eq_true] at hcond
  have hb : isBoundary (s.getD p ' ') = true := hcond.2
  rw [List.getD_eq_getElem s ' ' hp] at hb
  have := hnb s[p] (List.getElem_mem hp)
  rw [this] at hb
  cases hb

/-- On a text with no boundary characters every cut is a hard character
cut at start + maxSize, clipped at the end of the text. -/
theorem cutPos_no_boundary (s : List Char) (hnb : ∀ c ∈ s, isBoundary c = false)
    (start m ov : Nat) :
    cutPos s start m ov = if s.length ≤ start + m then s.length else start + m := by
  unfold cutPos
  rw [boundaryCuts_eq_nil s hnb]
  split <;> rfl

/-- C5: chunk(text, max_size, overlap) fails with a ChunkingError if and
only if max_size is at most overlap or the input text is empty; on every
other input it returns a finite sequence of chunks whose ordinals are
0, 1, ..., n-1 in order. -/
theorem chunk_error_characterization (t : List Char) (m ov : Nat) :
    ((∃ e, chunk t m ov = .error e) ↔ (m ≤ ov ∨ t = [])) ∧
    (∀ cs, chunk t m ov = .ok cs → cs.map Chunk.ordinal = List.range cs.length) := by
  constructor
  · constructor
    · rintro ⟨e, he⟩
      unfold chunk at he
      split at he
      · left; assumption
      · split at he
        · right
          rename_i h2
          exact List.isEmpty_iff.mp h2
        · cases he
    · intro h
      unfold chunk
      rcases h with h | h
      · rw [if_pos h]
        exact ⟨.badConfig, rfl⟩
      · subst h
        split
        · exact ⟨.badConfig, rfl⟩
        · exact ⟨.emptyInput, rfl⟩
  · intro cs hcs
    unfold chunk at hcs
    split at hcs
    · cases hcs
    · split at hcs
      · cases hcs
      · injection hcs with hcs
        subst hcs
        rw [chunkGo_ordinals, List.range_eq_range']

/-- C5 witness: the error characterization instantiated at a concrete
bad configuration and at a concrete good input. -/
theorem chunk_error_characterization_witness :
    (∃ e, chunk ['a', 'b'] 2 3 = .error e) ∧
    (¬ ∃ e, chunk ['a', 'b'] 2 1 = .error e) := by
  constructor
  · exact (chunk_error_characterization ['a', 'b'] 2 3).1.mpr (Or.inl (by norm_num))
  · intro h
    have := (chunk_error_characterization ['a', 'b'] 2 1).1.mp h
    rcases this with h1 | h1
    · omega
    · cases h1

/-- C4: on a 2500-character text with no sentence or paragraph boundary
characters (so every cut is the hard character-cut fallback), chunking
with max_size 1000 and overlap 100 yields exactly 3 chunks with ordinals
0, 1, 2, and chunk 1 starts at character 900, which is overlap characters
before the end of chunk 0. -/
theorem chunk_scenario_2500 (t : List Char) (hlen : t.length = 2500)
    (hnb : ∀ c ∈ t, isBoundary c = false) :
    ∃ c0 c1 c2, chunk t 1000 100 = .ok [c0, c1, c2] ∧
      c0.ordinal = 0 ∧ c1.ordinal = 1 ∧ c2.ordinal = 2 ∧
      c0.startOff = 0 ∧ c1.startOff = 900 ∧ c2.startOff = 1800 := by
  have hc0 : cutPos t 0 1000 100 = 1000 := by
    rw [cutPos_no_boundary t hnb, hlen]; norm_num
  have hc1 : cutPos t 900 1000 100 = 1900 := by
    rw [cutPos_no_boundary t hnb, hlen]; norm_num
  have hc2 : cutPos t 1800 1000 100 = 2500 := by
    rw [cutPos_no_boundary t hnb, hlen]; norm_num
  have hne : t.isEmpty = false := by
    rw [List.isEmpty_eq_false]
    intro h
    rw [h] at hlen
    simp at hlen
  have hchunk : chunk t 1000 100 = .ok (chunkGo t 1000 100 (t.length + 1) 0 0) := by
    unfold chunk
    rw [if_neg (by norm_num), hne]
    rfl
  rw [hlen] at hchunk
  rw [show (2500 : Nat) + 1 = 2500 + 1 from rfl, chunkGo_succ, hc0, hlen] at hchunk
  norm_num at hchunk
  rw [show (2500 : Nat) = 2499 + 1 from rfl, chunkGo_succ, hc1, hlen] at hchunk
  norm_num at hchunk
  rw [show (2499 : Nat) = 2498 + 1 from rfl, chunkGo_succ, hc2, hlen] at hchunk
  norm_num at hchunk
  exact ⟨_, _, _, hchunk, rfl, rfl, rfl, rfl, rfl, rfl⟩

/-- C4 witness: the scenario applied to the concrete text of 2500 letters. -/
theorem chunk_scenario_2500_witness :
    ∃ c0 c1 c2, chunk (List.replicate 2500 'a') 1000 100 = .ok [c0, c1, c2] ∧
      c0.ordinal = 0 ∧ c1.ordinal = 1 ∧ c2.ordinal = 2 ∧
      c0.startOff = 0 ∧ c1.startOff = 900 ∧ c2.startOff = 1800 :=
  chunk_scenario_2500 (List.replicate 2500 'a') (List.length_replicate 2500 'a')
    (fun c hc => by rw [List.eq_of_mem_replicate hc]; rfl)

theorem midTrim_single (ov : Nat) (t : List Char) : midTrim ov [t] = t := by
  unfold midTrim
  rfl

theorem midTrim_cons (ov : Nat) (t t2 : List Char) (ts : List (List Char)) :
    midTrim ov (t :: t2 :: ts) =
      t.take (t.length - (ov - ov / 2)) ++ midTrim ov (t2.drop (ov / 2) :: ts) := by
  conv_lhs => unfold midTrim

theorem dropHead_zero (ts : List (List Char)) : dropHead 0 ts = ts := by
  cases ts with
  | nil => rfl
  | cons t ts => simp [dropHead]

theorem take_append_drop_drop (l : List Char) (a b : Nat) (hab : a ≤ b) :
    (l.drop a).take (b - a) ++ l.drop b = l.drop a := by
  have h : l.drop b = (l.drop a).drop (b - a) := by
    rw [List.drop_drop]
    congr 1
    omega
  rw [h, List.take_append_drop]

/-- Main reconstruction lemma: dropping k characters from the head chunk
and gluing the rest with midpoint trimming recovers the source text from
position start + k on. -/
theorem midTrim_chunkGo (s : List Char) (m ov : Nat) (hmo : ov < m) :
    ∀ fuel start ord k, s.length - start < fuel → start < s.length → k ≤ ov / 2 →
      midTrim ov (dropHead k ((chunkGo s m ov fuel start ord).map Chunk.text)) =
        s.drop (start + k) := by
  intro fuel
  induction fuel with
  | zero =>
    intro start ord k h1 h2 h3
    omega
  | succ fuel ih =>
    intro start ord k h1 h2 h3
    rw [chunkGo_succ]
    by_cases hcut : s.length ≤ cutPos s start m ov
    · rw [if_pos hcut]
      have hce : cutPos s start m ov = s.length :=
        le_antisymm (cutPos_le_length s start m ov) hcut
      rw [hce]
      simp only [List.map_cons, List.map_nil, dropHead]
      rw [midTrim_single]
      rw [List.take_of_length_le (by rw [List.length_drop])]
      rw [List.drop_drop]
    · rw [if_neg hcut]
      push_neg at hcut
      have hprog : start + ov < cutPos s start m ov :=
        cutPos_pos_progress s start m ov hmo hcut
      have hcl : cutPos s start m ov ≤ s.length := cutPos_le_length s start m ov
      have hfz : fuel ≠ 0 := by omega
      obtain ⟨r, rs, hr⟩ := List.exists_cons_of_ne_nil
        (chunkGo_ne_nil s m ov fuel (cutPos s start m ov - ov) (ord + 1) hfz)
      rw [hr]
      simp only [List.map_cons, dropHead]
      rw [midTrim_cons]
      have hrec := ih (cutPos s start m ov - ov) (ord + 1) (ov / 2)
        (by omega) (by omega) le_rfl
      rw [hr] at hrec
      simp only [List.map_cons, dropHead] at hrec
      rw [hrec]
      have hhead : ((s.drop start).take (cutPos s start m ov - start)).drop k =
          (s.drop (start + k)).take (cutPos s start m ov - start - k) := by
        rw [List.drop_take, List.drop_drop]
      rw [hhead]
      have hlentake : ((s.drop (start + k)).take (cutPos s start m ov - start - k)).length =
          cutPos s start m ov - start - k := by
        rw [List.length_take, List.length_drop]
        omega
      rw [hlentake]
      rw [List.take_take]
      rw [min_eq_left (by omega)]
      have harith : cutPos s start m ov - start - k - (ov - ov / 2) =
          (cutPos s start m ov - (ov - ov / 2)) - (start + k) := by
        omega
      have harith2 : cutPos s start m ov - ov + ov / 2 =
          cutPos s start m ov - (ov - ov / 2) := by
        omega
      rw [harith, harith2]
      exact take_append_drop_drop s (start + k) (cutPos s start m ov - (ov - ov / 2))
        (by omega)

/-- C6: for every non-empty text and valid parameters, the chunk texts,
with each pairwise overlap between consecutive chunks trimmed at its
midpoint, concatenate back to exactly the source text. -/
theorem chunk_midpoint_reconstruction (t : List Char) (m ov : Nat)
    (ht : t ≠ []) (hmo : ov < m) :
    ∃ cs, chunk t m ov = .ok cs ∧ midTrim ov (cs.map Chunk.text) = t := by
  have htlen : 0 < t.length := List.length_pos.mpr ht
  have hne : t.isEmpty = false := by
    rw [List.isEmpty_eq_false]
    exact ht
  refine ⟨chunkGo t m ov (t.length + 1) 0 0, ?_, ?_⟩
  · unfold chunk
    rw [if_neg (Nat.not_le.mpr hmo), hne]
    rfl
  · have h := midTrim_chunkGo t m ov hmo (t.length + 1) 0 0 0 (by omega) htlen (by omega)
    rw [dropHead_zero] at h
    simpa using h

/-- C6 witness: reconstruction on a concrete three-character text with
max_size 2 and overlap 1. -/
theorem chunk_midpoint_reconstruction_witness :
    ∃ cs, chunk ['a', 'b', 'c'] 2 1 = .ok cs ∧
      midTrim 1 (cs.map Chunk.text) = ['a', 'b', 'c'] :=
  chunk_midpoint_reconstruction ['a', 'b', 'c'] 2 1 (by decide) (by decide)

theorem mem_deleteByDoc {d : Nat} {idx : List Entry} {e : Entry} :
    e ∈ deleteByDoc d idx ↔ e ∈ idx ∧ e.docId ≠ d := by
  unfold deleteByDoc
  rw [List.mem_filter]
  simp

theorem entriesFor_deleteByDoc (d : Nat) (idx : List Entry) :
    entriesFor d (deleteByDoc d idx) = [] := by
  unfold entriesFor
  rw [List.filter_eq_nil_iff]
  intro e he
  rw [mem_deleteByDoc] at he
  simp [he.2]

theorem entriesFor_eq_nil_iff {d : Nat} {idx : List Entry} :
    entriesFor d idx = [] ↔ ∀ e ∈ idx, e.docId ≠ d := by
  unfold entriesFor
  rw [List.filter_eq_nil_iff]
  simp

theorem step_preserves_inv {cfg : Nat} {s s2 : CorpusState} {a : Act}
    (hstep : Step cfg s a s2) (hI : IndexInv cfg s) (hF : FailedInv s) :
    IndexInv cfg s2 ∧ FailedInv s2 := by
  cases hstep with
  | claimJob d hd =>
    constructor
    · intro e he
      have h := hI e he
      simp only [setStatus]
      by_cases hx : e.docId = d
      · rw [if_pos hx]
        exact ⟨Or.inr rfl, h.2⟩
      · rw [if_neg hx]
        exact h
    · intro d2 hd2
      simp only [setStatus] at hd2
      by_cases hx : d2 = d
      · rw [if_pos hx] at hd2
        cases hd2
      · rw [if_neg hx] at hd2
        exact hF d2 hd2
  | reprocess d hd =>
    constructor
    · intro e he
      have h := hI e he
      simp only [setStatus]
      by_cases hx : e.docId = d
      · rw [if_pos hx]
        exact ⟨Or.inr rfl, h.2⟩
      · rw [if_neg hx]
        exact h
    · intro d2 hd2
      simp only [setStatus] at hd2
      by_cases hx : d2 = d
      · rw [if_pos hx] at hd2
        cases hd2
      · rw [if_neg hx] at hd2
        exact hF d2 hd2
  | finishSuccess d entries hd hent =>
    constructor
    · intro e he
      simp only [finishTarget] at he ⊢
      rw [List.mem_append] at he
      rcases he with he | he
      · rw [mem_deleteByDoc] at he
        have h := hI e he.1
        rw [if_neg he.2]
        exact h
      · have h := hent e he
        rw [h.1, if_pos rfl]
        exact ⟨Or.inl rfl, h.2⟩
    · intro d2 hd2
      simp only [finishTarget] at hd2 ⊢
      by_cases hx : d2 = d
      · rw [if_pos hx] at hd2
        cases hd2
      · rw [if_neg hx] at hd2
        have h := hF d2 hd2
        refine ⟨h.1, ?_⟩
        unfold entriesFor
        rw [List.filter_append, List.filter_eq_nil_iff.mpr, List.filter_eq_nil_iff.mpr,
          List.append_nil]
        · intro e he
          have := (hent e he).1
          simp only [decide_eq_true_eq]
          intro hcontra
          exact hx (by omega)
        · intro e he
          rw [mem_deleteByDoc] at he
          have := entriesFor_eq_nil_iff.mp h.2 e he.1
          simp [this]
  | fail d cause hd hc =>
    constructor
    · intro e he
      simp only [failTarget] at he ⊢
      rw [mem_deleteByDoc] at he
      have h := hI e he.1
      rw [if_neg he.2]
      exact h
    · intro d2 hd2
      simp only [failTarget] at hd2 ⊢
      by_cases hx : d2 = d
      · subst hx
        rw [if_pos rfl]
        exact ⟨by simp, by rw [entriesFor_deleteByDoc]⟩
      · rw [if_neg hx] at hd2
        have h := hF d2 hd2
        rw [if_neg hx]
        refine ⟨h.1, ?_⟩
        rw [entriesFor_eq_nil_iff]
        intro e he
        rw [mem_deleteByDoc] at he
        exact entriesFor_eq_nil_iff.mp h.2 e he.1

theorem reachable_inv (cfg : Nat) (s : CorpusState) (hs : Reachable cfg s) :
    IndexInv cfg s ∧ FailedInv s := by
  induction hs with
  | refl =>
    constructor
    · intro e he
      cases he
    · intro d hd
      simp only [initState] at hd
      cases hd
  | tail hab hbc ih =>
    obtain ⟨a, ha⟩ := hbc
    exact step_preserves_inv ha ih.1 ih.2

/-- C1: in every state reachable by the ingestion step relation, every
index entry belongs to a ready or processing document (upsert happens
only after all chunks of a document succeed), and search never returns
an entry of a document whose status is not ready. -/
theorem search_only_ready (cfg : Nat) (s : CorpusState) (hs : Reachable cfg s) :
    (∀ e ∈ s.index, s.status e.docId = .ready ∨ s.status e.docId = .processing) ∧
    (∀ q topK mf e, e ∈ searchIndex s q topK mf → s.status e.docId = .ready) := by
  constructor
  · intro e he
    exact ((reachable_inv cfg s hs).1 e he).1
  · intro q topK mf e he
    unfold searchIndex at he
    have h1 := List.mem_of_mem_take he
    have h2 := (List.perm_insertionSort _ _).mem_iff.mp h1
    rw [List.mem_filter, Bool.and_eq_true] at h2
    exact of_decide_eq_true h2.2.2

/-- C1 witness: the invariant instantiated in a concrete reachable state
in which document 0 was ingested successfully. -/
theorem search_only_ready_witness :
    sampleReadyState.status sampleEntry.docId = .ready ∨
    sampleReadyState.status sampleEntry.docId = .processing := by
  have hreach : Reachable 3 sampleReadyState := by
    refine Relation.ReflTransGen.tail (Relation.ReflTransGen.single ⟨_, Step.claimJob initState 0 rfl⟩) ⟨_, Step.finishSuccess (setStatus initState 0 .processing) 0 [sampleEntry] (by simp [setStatus]) ?_⟩
    intro e he
    rw [List.mem_singleton] at he
    subst he
    exact ⟨rfl, rfl, rfl⟩
  exact (search_only_ready 3 sampleReadyState hreach).1 sampleEntry
    (by simp [sampleReadyState, finishTarget, deleteByDoc, initState])

/-- C2: in every reachable state a failed document has a populated error
detail and zero index entries; moreover the fail transition itself
records the given cause, sets failed, and deletes every partial entry of
the document. -/
theorem failed_doc_no_residue (cfg : Nat) :
    (∀ s, Reachable cfg s → ∀ d, s.status d = .failed →
        s.errorDetail d ≠ none ∧ entriesFor d s.index = []) ∧
    (∀ s d cause, s.status d = .processing → cause ≠ [] →
        (failTarget s d cause).status d = .failed ∧
        (failTarget s d cause).errorDetail d = some cause ∧
        entriesFor d (failTarget s d cause).index = []) := by
  constructor
  · intro s hs d hd
    exact (reachable_inv cfg s hs).2 d hd
  · intro s d cause hd hc
    refine ⟨?_, ?_, ?_⟩
    · simp [failTarget]
    · simp [failTarget]
    · simp only [failTarget]
      exact entriesFor_deleteByDoc d s.index

/-- C2 witness: the fail transition applied in a concrete state where
document 0 is processing. -/
theorem failed_doc_no_residue_witness :
    (failTarget (setStatus initState 0 .processing) 0 ['E']).status 0 = .failed ∧
    (failTarget (setStatus initState 0 .processing) 0 ['E']).errorDetail 0 = some ['E'] ∧
    entriesFor 0 (failTarget (setStatus initState 0 .processing) 0 ['E']).index = [] :=
  (failed_doc_no_residue 3).2 (setStatus initState 0 .processing) 0 ['E']
    (by simp [setStatus]) (by simp)

/-- C8: every ingestion step either leaves a document's status unchanged
or moves it monotonically along new, processing, ready or failed, except
that the explicit reprocess action moves a ready or failed document back
to processing; and the reprocess action is enabled exactly in the ready
and failed states. -/
theorem reprocess_state_machine (cfg : Nat) :
    (∀ s a s2, Step cfg s a s2 → ∀ d,
        s2.status d = s.status d ∨
        (s.status d = .new ∧ s2.status d = .processing) ∨
        (s.status d = .processing ∧ (s2.status d = .ready ∨ s2.status d = .failed)) ∨
        (a = Act.reprocess d ∧ (s.status d = .ready ∨ s.status d = .failed) ∧
          s2.status d = .processing)) ∧
    (∀ s d, (∃ s2, Step cfg s (Act.reprocess d) s2) ↔
        (s.status d = .ready ∨ s.status d = .failed)) := by
  constructor
  · intro s a s2 hstep d
    cases hstep with
    | claimJob d0 hd0 =>
      by_cases hx : d = d0
      · subst hx
        right; left
        exact ⟨hd0, by simp [setStatus]⟩
      · left
        simp [setStatus, hx]
    | reprocess d0 hd0 =>
      by_cases hx : d = d0
      · subst hx
        right; right; right
        exact ⟨rfl, hd0, by simp [setStatus]⟩
      · left
        simp [setStatus, hx]
    | finishSuccess d0 entries hd0 hent =>
      by_cases hx : d = d0
      · subst hx
        right; right; left
        exact ⟨hd0, Or.inl (by simp [finishTarget])⟩
      · left
        simp [finishTarget, hx]
    | fail d0 cause hd0 hc =>
      by_cases hx : d = d0
      · subst hx
        right; right; left
        exact ⟨hd0, Or.inr (by simp [failTarget])⟩
      · left
        simp [failTarget, hx]
  · intro s d
    constructor
    · rintro ⟨s2, hstep⟩
      cases hstep with
      | reprocess d hd => exact hd
    · intro h
      exact ⟨_, Step.reprocess s d h⟩

/-- C8 witness: reprocess enabled in a concrete state where document 0
has failed. -/
theorem reprocess_state_machine_witness :
    ∃ s2, Step 3 sampleFailedState (Act.reprocess 0) s2 :=
  ((reprocess_state_machine 3).2 sampleFailedState 0).mpr
    (Or.inr (by simp [sampleFailedState, failTarget]))

/-- C3: every entry ever stored in the Vector Index has the configured
dimension; embed_batch and embed_query raise DimensionMismatchError
exactly when some returned vector has a different dimension; and a
successful ingestion attempt only produces entries of the configured
dimension, so no mismatched entry is dropped, truncated, or stored. -/
theorem dimension_invariant (cfg : Nat) :
    (∀ s, Reachable cfg s → ∀ e ∈ s.index, e.dim = cfg ∧ e.vector.length = cfg) ∧
    (∀ embedFn ts, embedBatch cfg embedFn ts = .error .dimensionMismatch ↔
        ∃ t ∈ ts, (embedFn t).length ≠ cfg) ∧
    (∀ embedFn t, embedQuery cfg embedFn t = .error .dimensionMismatch ↔
        (embedFn t).length ≠ cfg) ∧
    (∀ embedFn extracted m ov d entries,
        ingestAttempt cfg embedFn extracted m ov d = .ok entries →
        ∀ e ∈ entries, e.dim = cfg ∧ e.vector.length = cfg) := by
  have hbatch : ∀ (embedFn : List Char → List Int) (ts : List (List Char)),
      embedBatch cfg embedFn ts = .error .dimensionMismatch ↔
        ∃ t ∈ ts, (embedFn t).length ≠ cfg := by
    intro embedFn ts
    unfold embedBatch
    constructor
    · intro h
      split at h
      · cases h
      · rename_i hall
        rw [List.all_eq_true] at hall
        push_neg at hall
        obtain ⟨v, hv, hvl⟩ := hall
        rw [List.mem_map] at hv
        obtain ⟨t, ht, rfl⟩ := hv
        refine ⟨t, ht, ?_⟩
        intro hcontra
        exact hvl (by simp [hcontra])
    · rintro ⟨t, ht, hlen⟩
      rw [if_neg]
      intro hall
      rw [List.all_eq_true] at hall
      have := hall (embedFn t) (List.mem_map_of_mem embedFn ht)
      exact hlen (of_decide_eq_true this)
  refine ⟨?_, hbatch, ?_, ?_⟩
  · intro s hs e he
    exact ((reachable_inv cfg s hs).1 e he).2
  · intro embedFn t
    unfold embedQuery
    constructor
    · intro h
      split at h
      · cases h
      · assumption
    · intro h
      rw [if_neg h]
  · intro embedFn extracted m ov d entries hok e he
    unfold ingestAttempt at hok
    rcases extracted with _ | text
    · cases hok
    · split at hok
      · cases hok
      · rename_i text2 hext
        split at hok
        · cases hok
        · rename_i cs hchunk
          split at hok
          · cases hok
          · rename_i vs hbe
            injection hok with hok
            subst hok
            unfold embedBatch at hbe
            split at hbe
            · rename_i hall
              injection hbe with hbe
              rw [List.all_eq_true] at hall
              unfold mkEntries at he
              rw [List.mem_map] at he
              obtain ⟨p, hp, rfl⟩ := he
              have hpv : p.2 ∈ vs := (List.of_mem_zip hp).2
              rw [← hbe] at hpv
              have := of_decide_eq_true (hall p.2 hpv)
              exact ⟨this, this⟩
            · cases hbe

/-- C3 witness: embed_query rejecting a two-dimensional vector under a
configured dimension of three. -/
theorem dimension_invariant_witness :
    embedQuery 3 (fun _ => [(1 : Int), 2]) ['q'] = .error .dimensionMismatch :=
  ((dimension_invariant 3).2.2.1 (fun _ => [(1 : Int), 2]) ['q']).mpr (by decide)

theorem clamp01_nonneg (x : ℚ) : 0 ≤ clamp01 x := le_max_left 0 (min 1 x)

theorem clamp01_le_one (x : ℚ) : clamp01 x ≤ 1 :=
  max_le (by norm_num) (min_le_left 1 x)

theorem fillOne_of_all_below {floor : ℚ} {cands : List Candidate}
    (h : ∀ c ∈ cands, clamp01 c.rawScore < floor) : fillOne floor cands = (none, 0) := by
  unfold fillOne
  cases hmax : cands.argmax (fun c => clamp01 c.rawScore) with
  | none => rfl
  | some best =>
    have hb : best ∈ cands := List.argmax_mem hmax
    exact if_neg (not_le.mpr (h best hb))

theorem fillOne_filled {floor : ℚ} {cands : List Candidate} {v : List Char} {conf : ℚ}
    (h : fillOne floor cands = (some v, conf)) :
    floor ≤ conf ∧ 0 ≤ conf ∧ conf ≤ 1 := by
  unfold fillOne at h
  cases hmax : cands.argmax (fun c => clamp01 c.rawScore) with
  | none =>
    rw [hmax] at h
    have h1 : (none : Option (List Char)) = some v := congrArg Prod.fst h
    exact Option.noConfusion h1
  | some best =>
    rw [hmax] at h
    have h2 : (if floor ≤ clamp01 best.rawScore then
        ((some best.value : Option (List Char)), clamp01 best.rawScore)
      else (none, 0)) = (some v, conf) := h
    by_cases hc : floor ≤ clamp01 best.rawScore
    · rw [if_pos hc] at h2
      have hconf : clamp01 best.rawScore = conf := congrArg Prod.snd h2
      subst hconf
      exact ⟨hc, clamp01_nonneg _, clamp01_le_one _⟩
    · rw [if_neg hc] at h2
      have h1 : (none : Option (List Char)) = some v := congrArg Prod.fst h2
      exact Option.noConfusion h1

/-- C7: a field with no candidate reaching the minimum confidence floor
is returned with value none and confidence 0 and, for distinct field
names, is left untouched by the rewrite plan; every filled field's
confidence clears the floor and lies in the unit interval; and the
average confidence across all fields is reported to the caller. -/
theorem autofill_floor_properties (floor : ℚ) (retrieve : FieldSpec → List Candidate)
    (fields : List FieldSpec) :
    ((autoFill floor retrieve fields).averageConfidence =
        ((autoFill floor retrieve fields).results.map FieldResult.confidence).sum /
          (fields.length : ℚ)) ∧
    (∀ f ∈ fields, (∀ c ∈ retrieve f, clamp01 c.rawScore < floor) →
        (⟨f.name, none, 0⟩ : FieldResult) ∈ (autoFill floor retrieve fields).results ∧
        ((fields.map FieldSpec.name).Nodup →
          f.name ∉ ((autoFill floor retrieve fields).plan.map Prod.fst))) ∧
    (∀ r ∈ (autoFill floor retrieve fields).results, ∀ v, r.value = some v →
        floor ≤ r.confidence ∧ 0 ≤ r.confidence ∧ r.confidence ≤ 1) := by
  refine ⟨rfl, ?_, ?_⟩
  · intro f hf hbelow
    have hfill := fillOne_of_all_below hbelow
    constructor
    · have hmem := List.mem_map_of_mem (fun f2 =>
        ({ name := f2.name,
           value := (fillOne floor (retrieve f2)).1,
           confidence := (fillOne floor (retrieve f2)).2 } : FieldResult)) hf
      simp only [autoFill]
      convert hmem using 2 <;> rw [hfill]
    · intro hnodup hplan
      rw [List.mem_map] at hplan
      obtain ⟨p, hp, hfst⟩ := hplan
      simp only [autoFill] at hp
      rw [List.mem_filterMap] at hp
      obtain ⟨r, hr, hrp⟩ := hp
      rw [List.mem_map] at hr
      obtain ⟨f2, hf2, hrf2⟩ := hr
      subst hrf2
      simp only [Option.map_eq_some'] at hrp
      obtain ⟨v, hv, hpv⟩ := hrp
      have hname : f2.name = f.name := by rw [← hfst, ← hpv]
      have heq : f2 = f := List.inj_on_of_nodup_map hnodup hf2 hf hname
      subst heq
      rw [hfill] at hv
      exact Option.noConfusion hv
  · intro r hr v hv
    simp only [autoFill] at hr
    rw [List.mem_map] at hr
    obtain ⟨f2, hf2, hrf2⟩ := hr
    subst hrf2
    have hpair : fillOne floor (retrieve f2) = (some v, (fillOne floor (retrieve f2)).2) := by
      rw [← hv]
    exact fillOne_filled hpair

/-- C7 witness: a single field whose only candidate scores 1/4, below a
floor of 1/2, is left unfilled with confidence 0. -/
theorem autofill_floor_properties_witness :
    (⟨['a'], none, 0⟩ : FieldResult) ∈
      (autoFill (1 / 2) (fun _ => [⟨['v'], 0, 0, 1 / 4⟩]) [⟨['a'], ['t'], true⟩]).results :=
  ((autofill_floor_properties (1 / 2) (fun _ => [⟨['v'], 0, 0, 1 / 4⟩])
      [⟨['a'], ['t'], true⟩]).2.1 ⟨['a'], ['t'], true⟩ (List.mem_singleton.mpr rfl)
    (by
      intro c hc
      rw [List.mem_singleton] at hc
      subst hc
      norm_num [clamp01])).1

/-- C9: a selected file is submitted to uploadDocuments exactly when
validateFile returns no error, which holds exactly when its MIME type is
one of the accepted types or its lowercased name ends in an accepted
extension, and its size is at most 500 * 1024 * 1024 bytes; every
rejected file produces an error message and is never submitted. -/
theorem upload_validation (files : List FileMeta) (f : FileMeta) :
    (f ∈ handleFilesSubmitted files ↔ f ∈ files ∧ validateFile f = none) ∧
    (validateFile f = none ↔
      ((f.mimeType ∈ acceptedMimeTypes ∨ extensionMatches f.name = true) ∧
        f.size ≤ maxFileSize)) ∧
    (f ∈ files → validateFile f ≠ none →
      f ∉ handleFilesSubmitted files ∧
      (f.name ++ ": ".toList ++ ((validateFile f).getD [])) ∈ handleFilesErrors files) := by
  refine ⟨?_, ?_, ?_⟩
  · unfold handleFilesSubmitted
    rw [List.mem_filter]
    simp [Option.isNone_iff_eq_none]
  · unfold validateFile
    by_cases h1 : f.mimeType ∉ acceptedMimeTypes ∧ extensionMatches f.name = false
    · rw [if_pos h1]
      constructor
      · intro h
        cases h
      · rintro ⟨hor, _⟩
        rcases hor with h | h
        · exact absurd h h1.1
        · rw [h1.2] at h
          cases h
    · rw [if_neg h1]
      by_cases h2 : f.size > maxFileSize
      · rw [if_pos h2]
        constructor
        · intro h
          cases h
        · rintro ⟨_, hsz⟩
          omega
      · rw [if_neg h2]
        push_neg at h1 h2
        constructor
        · intro _
          refine ⟨?_, h2⟩
          by_cases hm : f.mimeType ∈ acceptedMimeTypes
          · exact Or.inl hm
          · right
            cases hext : extensionMatches f.name with
            | true => rfl
            | false => exact absurd hext (h1 hm)
        · intro _
          rfl
  · intro hf hval
    constructor
    · unfold handleFilesSubmitted
      rw [List.mem_filter]
      rintro ⟨_, hnone⟩
      exact hval (Option.isNone_iff_eq_none.mp hnone)
    · unfold handleFilesErrors
      apply List.mem_map_of_mem
      rw [List.mem_filter]
      exact ⟨hf, Option.isSome_iff_ne_none.mpr hval⟩

/-- C9 witness: a file with an unsupported type and extension is
rejected with an error message and not submitted. -/
theorem upload_validation_witness :
    (⟨"x.exe".toList, "application/exe".toList, 10⟩ : FileMeta) ∉
      handleFilesSubmitted [⟨"x.exe".toList, "application/exe".toList, 10⟩] ∧
    ((⟨"x.exe".toList, "application/exe".toList, 10⟩ : FileMeta).name ++ ": ".toList ++
      ((validateFile ⟨"x.exe".toList, "application/exe".toList, 10⟩).getD [])) ∈
      handleFilesErrors [⟨"x.exe".toList, "application/exe".toList, 10⟩] :=
  (upload_validation [⟨"x.exe".toList, "application/exe".toList, 10⟩]
      ⟨"x.exe".toList, "application/exe".toList, 10⟩).2.2
    (List.mem_singleton.mpr rfl) (by decide)

/-- C10: the auto-fill request names every extracted field in extraction
order; when the trimmed guidance is empty the search context is exactly
the base instruction and agent guidance is omitted; when it is non-empty
the search context is the base instruction, one space, and the trimmed
guidance, and agent guidance carries the trimmed guidance. -/
theorem autofill_request_shape (formId : List Char) (fields : List FormFieldUI)
    (guidance : List Char) :
    ((buildAutoFillRequest formId fields guidance).fieldNames =
        fields.map (fun f => f.name)) ∧
    (trimChars guidance = [] →
        (buildAutoFillRequest formId fields guidance).searchContext = baseInstruction ∧
        (buildAutoFillRequest formId fields guidance).agentGuidance = none) ∧
    (trimChars guidance ≠ [] →
        (buildAutoFillRequest formId fields guidance).searchContext =
          baseInstruction ++ (' ' :: trimChars guidance) ∧
        (buildAutoFillRequest formId fields guidance).agentGuidance =
          some (trimChars guidance)) := by
  refine ⟨rfl, ?_, ?_⟩
  · intro h
    constructor
    · simp [buildAutoFillRequest, h]
    · simp [buildAutoFillRequest, h]
  · intro h
    constructor
    · simp [buildAutoFillRequest, h]
    · simp [buildAutoFillRequest, h]

/-- C10 witness: a concrete request with non-empty guidance gets the
combined search context and the trimmed guidance. -/
theorem autofill_request_shape_witness :
    (buildAutoFillRequest "f1".toList [⟨"campo".toList, "text".toList, true⟩]
        "  usa il contratto  ".toList).searchContext =
      baseInstruction ++ (' ' :: trimChars "  usa il contratto  ".toList) ∧
    (buildAutoFillRequest "f1".toList [⟨"campo".toList, "text".toList, true⟩]
        "  usa il contratto  ".toList).agentGuidance =
      some (trimChars "  usa il contratto  ".toList) :=
  (autofill_request_shape "f1".toList [⟨"campo".toList, "text".toList, true⟩]
      "  usa il contratto  ".toList).2.2 (by decide)

end RagSystem
